import Mathlib

/-!
Shallow embedding of the SpeakWell backend (src/backend/main.py): the text
normalizer, the word evaluator, the /transcribe scoring, and the phrase
catalog lookup.  Python strings are modelled as `List Char`; the character
classes of Python's `str.lower`, `str.split` and the regex classes `\w`, `\s`
are modelled over the ASCII and Latin-1 range, the alphabet this application
uses; scores are exact rationals and Python's `round` (half to even) is
modelled on those exact values.
-/

namespace SpeakWell

/-- Model of Python `str.lower` as a character map over ASCII and Latin-1:
uppercase A-Z and À-Þ (except the multiplication sign ×) shift down by 32. -/
def pyLower (c : Char) : Char :=
  if (65 ≤ c.toNat ∧ c.toNat ≤ 90) ∨ (192 ≤ c.toNat ∧ c.toNat ≤ 222 ∧ c.toNat ≠ 215) then
    Char.ofNat (c.toNat + 32)
  else c

/-- Model of the whitespace class of Python `str.split` and regex `\s`
over ASCII and Latin-1 (space, tab, newline, CR, VT, FF, NEL, NBSP). -/
def pyIsSpace (c : Char) : Bool :=
  c == ' ' || c == '\t' || c == '\n' || c == '\r' ||
    c.toNat == 11 || c.toNat == 12 || c.toNat == 133 || c.toNat == 160

/-- Model of the letter class over ASCII and Latin-1: a-z, A-Z, and the
Latin-1 letters À-ÿ minus the two signs × and ÷. -/
def pyIsAlpha (c : Char) : Bool :=
  decide ((97 ≤ c.toNat ∧ c.toNat ≤ 122) ∨ (65 ≤ c.toNat ∧ c.toNat ≤ 90) ∨
    (192 ≤ c.toNat ∧ c.toNat ≤ 255 ∧ c.toNat ≠ 215 ∧ c.toNat ≠ 247))

/-- Decimal digit class. -/
def pyIsDigit (c : Char) : Bool := decide (48 ≤ c.toNat ∧ c.toNat ≤ 57)

/-- Model of the regex class `\w`: letters, digits and underscore. -/
def pyIsWordChar (c : Char) : Bool := pyIsAlpha c || pyIsDigit c || c == '_'

/-- The apostrophe character, U+0027. -/
def apostrophe : Char := Char.ofNat 39

/-- The characters kept by `re.sub(r"[^\w\s']", "", text)`: word characters,
whitespace, and the apostrophe. -/
def keepChar (c : Char) : Bool := pyIsWordChar c || pyIsSpace c || c == apostrophe

/-- Accumulator worker for Python `str.split()` with no separator:
split on runs of whitespace, discarding empty tokens. -/
def pySplitAux : List Char → List Char → List (List Char)
  | [], acc => if acc.isEmpty then [] else [acc.reverse]
  | c :: cs, acc =>
    if pyIsSpace c then
      if acc.isEmpty then pySplitAux cs [] else acc.reverse :: pySplitAux cs []
    else pySplitAux cs (c :: acc)

/-- Model of Python `text.split()`. -/
def pySplit (s : List Char) : List (List Char) := pySplitAux s []

/-- Model of Python `" ".join(words)`. -/
def joinWords : List (List Char) → List Char
  | [] => []
  | [w] => w
  | w :: ws => w ++ ' ' :: joinWords ws

/-- `normalize_text` from src/backend/main.py: lowercase, strip every
character outside `[\w\s']`, then `" ".join(text.split())`. -/
def normalize_text (text : List Char) : List Char :=
  joinWords (pySplit (List.filter keepChar (text.map pyLower)))

/-- The `WordEvaluation` pydantic model. -/
structure WordEvaluation where
  word : List Char
  correct : Bool
deriving DecidableEq, Repr

/-- `evaluate_words` from src/backend/main.py: normalize both texts, split
into words, and mark each expected word correct iff it occurs among the
transcribed words. -/
def evaluate_words (transcribed expected : List Char) : List WordEvaluation :=
  let transcribed_normalized := normalize_text transcribed
  let expected_normalized := normalize_text expected
  let transcribed_words := pySplit transcribed_normalized
  let expected_words := pySplit expected_normalized
  expected_words.map (fun w => { word := w, correct := transcribed_words.contains w })

/-- Python `round` to the nearest integer, ties to even, on an exact
rational. -/
def pyRoundHalfEven (q : ℚ) : ℤ :=
  if q - ⌊q⌋ < 1 / 2 then ⌊q⌋
  else if 1 / 2 < q - ⌊q⌋ then ⌊q⌋ + 1
  else if ⌊q⌋ % 2 = 0 then ⌊q⌋ else ⌊q⌋ + 1

/-- Python `round(x, 1)` on an exact rational. -/
def pyRound1 (q : ℚ) : ℚ := (pyRoundHalfEven (10 * q) : ℚ) / 10

/-- The `TranscriptionResponse` pydantic model. -/
structure TranscriptionResponse where
  transcribed_text : List Char
  expected_phrase : List Char
  word_evaluations : List WordEvaluation
  overall_score : ℚ
  all_correct : Bool
deriving DecidableEq, Repr

/-- The success path of the `/transcribe` handler, given the provider's
transcript: evaluate words, count the correct ones, compute the percentage
(0 when there are no words), round to one decimal. -/
def transcribe_success (transcribed_text expected_phrase : List Char) :
    TranscriptionResponse :=
  let word_evaluations := evaluate_words transcribed_text expected_phrase
  let correct_count := List.countP (fun e => e.correct) word_evaluations
  let total_count := word_evaluations.length
  let overall_score : ℚ :=
    if 0 < total_count then (correct_count : ℚ) / (total_count : ℚ) * 100 else 0
  { transcribed_text := transcribed_text
    expected_phrase := expected_phrase
    word_evaluations := word_evaluations
    overall_score := pyRound1 overall_score
    all_correct := correct_count == total_count }

/-- Model of FastAPI's `HTTPException`. -/
structure HTTPException where
  status_code : Nat
  detail : List Char
deriving DecidableEq, Repr

/-- The `/transcribe` handler.  The audio read and the provider call are the
one fallible step, modelled as an `Except` input: on success the full
response is computed, on failure a single 500 "Transcription failed" error
is raised. -/
def transcribe_audio (provider : Except (List Char) (List Char))
    (expected_phrase : List Char) : Except HTTPException TranscriptionResponse :=
  match provider with
  | Except.ok transcribed_text => Except.ok (transcribe_success transcribed_text expected_phrase)
  | Except.error e => Except.error { status_code := 500, detail := ("Transcription failed: ".toList ++ e) }

/-- The `Phrase` pydantic model. -/
structure Phrase where
  id : ℤ
  phrase : List Char
  translation : List Char
deriving DecidableEq, Repr

/-- The static `PORTUGUESE_PHRASES` catalog. -/
def PORTUGUESE_PHRASES : List Phrase :=
  [ { id := 1, phrase := "Olá, como vai?".toList, translation := "Hello, how are you?".toList },
    { id := 2, phrase := "Bom dia".toList, translation := "Good morning".toList },
    { id := 3, phrase := "Obrigado".toList, translation := "Thank you".toList },
    { id := 4, phrase := "Por favor".toList, translation := "Please".toList },
    { id := 5, phrase := "Como se chama?".toList, translation := "What is your name?".toList },
    { id := 6, phrase := "Muito prazer".toList, translation := "Nice to meet you".toList },
    { id := 7, phrase := "Até logo".toList, translation := "See you later".toList },
    { id := 8, phrase := "Boa noite".toList, translation := "Good night".toList },
    { id := 9, phrase := "Eu não entendo".toList, translation := "I don\x27t understand".toList },
    { id := 10, phrase := "Você fala inglês?".toList, translation := "Do you speak English?".toList } ]

/-- The `GET /phrases` handler. -/
def get_phrases : List Phrase := PORTUGUESE_PHRASES

/-- The `GET /phrases/\x7bphrase_id\x7d` handler: first phrase with a matching
id, else a 404. -/
def get_phrase (phrase_id : ℤ) : Except HTTPException Phrase :=
  match PORTUGUESE_PHRASES.find? (fun p => p.id == phrase_id) with
  | some p => Except.ok p
  | none => Except.error { status_code := 404, detail := "Phrase not found".toList }

/-- Negation of the whitespace class, the predicate that delimits words. -/
def notSpace (c : Char) : Bool := !pyIsSpace c

/-- The character class the spec's step (2) keeps: "a letter, number,
underscore, whitespace, or apostrophe". -/
def specKeep (c : Char) : Bool :=
  pyIsAlpha c || pyIsDigit c || c == '_' || pyIsSpace c || c == apostrophe

/-- The spec's step (3) on a string with no leading whitespace: collapse each
internal run of whitespace to a single space and drop a trailing run.  The
flag records whether a whitespace run is pending. -/
def specCollapseAux : List Char → Bool → List Char
  | [], _ => []
  | c :: cs, pending =>
    if pyIsSpace c then specCollapseAux cs true
    else (if pending then [' ', c] else [c]) ++ specCollapseAux cs false

/-- The normalizer exactly as the spec words it: (1) lowercase the whole
string; (2) delete every character that is not a letter, number, underscore,
whitespace, or apostrophe; (3) collapse whitespace runs to single spaces and
trim (leading whitespace by `dropWhile`, internal and trailing runs by
`specCollapseAux`). -/
def spec_normalize (text : List Char) : List Char :=
  specCollapseAux (((text.map pyLower).filter specKeep).dropWhile pyIsSpace) false

/-- Evaluate the rounding when the fractional part is below one half. -/
theorem pyRoundHalfEven_eq_low (q : ℚ) (f : ℤ) (h1 : (f : ℚ) ≤ q) (h2 : q - f < 1 / 2) :
    pyRoundHalfEven q = f := by
  have hf : ⌊q⌋ = f := by
    rw [Int.floor_eq_iff]
    exact ⟨h1, by linarith⟩
  simp only [pyRoundHalfEven, hf]
  rw [if_pos h2]

/-- Evaluate the rounding when the fractional part is above one half. -/
theorem pyRoundHalfEven_eq_high (q : ℚ) (f : ℤ) (h1 : (f : ℚ) ≤ q) (h2 : 1 / 2 < q - f)
    (h3 : q < f + 1) : pyRoundHalfEven q = f + 1 := by
  have hf : ⌊q⌋ = f := by
    rw [Int.floor_eq_iff]
    exact ⟨h1, by linarith⟩
  simp only [pyRoundHalfEven, hf]
  rw [if_neg (by linarith), if_pos h2]

/-- `Char.ofNat` round-trips on code points below the surrogate range. -/
theorem toNat_ofNat_of_lt {n : Nat} (h : n < 55296) : (Char.ofNat n).toNat = n := by
  unfold Char.ofNat
  rw [dif_pos (Or.inl h)]
  rfl

/-- The lowercase map is idempotent. -/
theorem pyLower_idem (c : Char) : pyLower (pyLower c) = pyLower c := by
  unfold pyLower
  by_cases h : (65 ≤ c.toNat ∧ c.toNat ≤ 90) ∨ (192 ≤ c.toNat ∧ c.toNat ≤ 222 ∧ c.toNat ≠ 215)
  · rw [if_pos h]
    have ht : (Char.ofNat (c.toNat + 32)).toNat = c.toNat + 32 :=
      toNat_ofNat_of_lt (by rcases h with ⟨h1, h2⟩ | ⟨h1, h2, h3⟩ <;> omega)
    have hneg : ¬((65 ≤ (Char.ofNat (c.toNat + 32)).toNat ∧ (Char.ofNat (c.toNat + 32)).toNat ≤ 90) ∨
        (192 ≤ (Char.ofNat (c.toNat + 32)).toNat ∧ (Char.ofNat (c.toNat + 32)).toNat ≤ 222 ∧
          (Char.ofNat (c.toNat + 32)).toNat ≠ 215)) := by
      rw [ht]
      rcases h with ⟨h1, h2⟩ | ⟨h1, h2, h3⟩ <;> omega
    rw [if_neg hneg]
  · rw [if_neg h, if_neg h]

/-- The space character is a fixed point of the lowercase map. -/
theorem pyLower_space : pyLower ' ' = ' ' := by decide

/-- The space character is kept by the filter. -/
theorem keepChar_space : keepChar ' ' = true := by decide

/-- The space character is whitespace. -/
theorem pyIsSpace_space : pyIsSpace ' ' = true := by decide

/-- Splitting the empty string gives no words. -/
theorem pySplit_nil : pySplit [] = [] := rfl

/-- Splitting drops a leading whitespace character. -/
theorem pySplit_cons_space {c : Char} (h : pyIsSpace c = true) (cs : List Char) :
    pySplit (c :: cs) = pySplit cs := by
  simp [pySplit, pySplitAux, h]

/-- With a nonempty accumulator, the split worker closes the current word at
the next whitespace run. -/
theorem pySplitAux_acc (s : List Char) (acc : List Char) (h : acc ≠ []) :
    pySplitAux s acc =
      (acc.reverse ++ s.takeWhile notSpace) :: pySplit (s.dropWhile notSpace) := by
  have hae : acc.isEmpty = false := by
    cases acc
    · exact absurd rfl h
    · rfl
  induction s generalizing acc with
  | nil => simp [pySplitAux, hae, pySplit]
  | cons c cs ih =>
    cases hsp : pyIsSpace c with
    | false =>
      have hnot : notSpace c = true := by simp [notSpace, hsp]
      have hrec := ih (c :: acc) (by simp) (by rfl)
      simp only [pySplitAux, hsp, Bool.false_eq_true, if_false, hrec, List.reverse_cons,
        List.takeWhile_cons, hnot, if_true, List.dropWhile_cons, Bool.not_eq_true]
      simp
    | true =>
      have hnot : notSpace c = false := by simp [notSpace, hsp]
      simp only [pySplitAux, hsp, if_true, hae, Bool.false_eq_true, if_false,
        List.takeWhile_cons, hnot, List.dropWhile_cons]
      rw [pySplit_cons_space hsp]
      simp [pySplit]

/-- Splitting peels off one whole word at a leading non-whitespace character. -/
theorem pySplit_cons_notSpace {c : Char} (h : pyIsSpace c = false) (cs : List Char) :
    pySplit (c :: cs) =
      (c :: cs.takeWhile notSpace) :: pySplit (cs.dropWhile notSpace) := by
  show pySplitAux (c :: cs) [] = _
  simp only [pySplitAux, h, Bool.false_eq_true, if_false]
  rw [pySplitAux_acc cs [c] (by simp)]
  simp

/-- Every word produced by the splitter is nonempty and whitespace-free. -/
theorem pySplit_words (s : List Char) :
    ∀ w ∈ pySplit s, w ≠ [] ∧ ∀ c ∈ w, pyIsSpace c = false := by
  cases s with
  | nil => simp [pySplit_nil]
  | cons c cs =>
    cases hsp : pyIsSpace c with
    | false =>
      rw [pySplit_cons_notSpace hsp]
      intro w hw
      rcases List.mem_cons.mp hw with hw | hw
      · subst hw
        refine ⟨by simp, ?_⟩
        intro x hx
        rcases List.mem_cons.mp hx with hx | hx
        · subst hx
          exact hsp
        · have hall := List.all_takeWhile (l := cs) (p := notSpace)
          rw [List.all_eq_true] at hall
          have hx' := hall x hx
          simpa [notSpace] using hx'
      · exact pySplit_words (cs.dropWhile notSpace) w hw
    | true =>
      rw [pySplit_cons_space hsp]
      exact pySplit_words cs
termination_by s.length
decreasing_by
all_goals simp only [List.length_cons]
all_goals try omega
all_goals exact Nat.lt_succ_of_le (List.dropWhile_sublist _).length_le

/-- Every character of a word produced by the splitter occurs in the input. -/
theorem pySplit_words_subset (s : List Char) :
    ∀ w ∈ pySplit s, ∀ c ∈ w, c ∈ s := by
  cases s with
  | nil => simp [pySplit_nil]
  | cons c cs =>
    cases hsp : pyIsSpace c with
    | false =>
      rw [pySplit_cons_notSpace hsp]
      intro w hw x hx
      rcases List.mem_cons.mp hw with hw | hw
      · subst hw
        rcases List.mem_cons.mp hx with hx | hx
        · subst hx
          exact List.mem_cons_self _ _
        · exact List.mem_cons_of_mem c ((List.takeWhile_sublist notSpace).subset hx)
      · exact List.mem_cons_of_mem c
          ((List.dropWhile_sublist notSpace).subset
            (pySplit_words_subset (cs.dropWhile notSpace) w hw x hx))
    | true =>
      rw [pySplit_cons_space hsp]
      intro w hw x hx
      exact List.mem_cons_of_mem c (pySplit_words_subset cs w hw x hx)
termination_by s.length
decreasing_by
all_goals simp only [List.length_cons]
all_goals try omega
all_goals exact Nat.lt_succ_of_le (List.dropWhile_sublist _).length_le

/-- Joining a list headed by a word with a nonempty tail. -/
theorem joinWords_cons_of_ne (w : List Char) (ws : List (List Char)) (h : ws ≠ []) :
    joinWords (w :: ws) = w ++ ' ' :: joinWords ws := by
  cases ws
  · exact absurd rfl h
  · rfl

/-- A character of a join is a space or a character of one of the words. -/
theorem mem_joinWords {ws : List (List Char)} {c : Char} (h : c ∈ joinWords ws) :
    c = ' ' ∨ ∃ w ∈ ws, c ∈ w := by
  induction ws with
  | nil => simp [joinWords] at h
  | cons w ws ih =>
    cases ws with
    | nil =>
      right
      exact ⟨w, by simp, by simpa [joinWords] using h⟩
    | cons v vs =>
      rw [joinWords_cons_of_ne w (v :: vs) (by simp)] at h
      rcases List.mem_append.mp h with h | h
      · right
        exact ⟨w, by simp, h⟩
      · rcases List.mem_cons.mp h with h | h
        · left
          exact h
        · rcases ih h with h | ⟨u, hu, hc⟩
          · left
            exact h
          · right
            exact ⟨u, List.mem_cons_of_mem _ hu, hc⟩

/-- Splitting a single nonempty whitespace-free word returns just that word. -/
theorem pySplit_word (w : List Char) (hne : w ≠ []) (hns : ∀ c ∈ w, pyIsSpace c = false) :
    pySplit w = [w] := by
  cases w with
  | nil => exact absurd rfl hne
  | cons c cs =>
    rw [pySplit_cons_notSpace (hns c (by simp))]
    have hall : ∀ a ∈ cs, notSpace a = true := fun a ha => by
      simp [notSpace, hns a (List.mem_cons_of_mem c ha)]
    have ht : cs.takeWhile notSpace = cs := by
      have h : (cs ++ ([] : List Char)).takeWhile notSpace =
          cs ++ ([] : List Char).takeWhile notSpace :=
        List.takeWhile_append_of_pos hall
      simpa using h
    have hd : cs.dropWhile notSpace = [] := by
      have h : (cs ++ ([] : List Char)).dropWhile notSpace =
          ([] : List Char).dropWhile notSpace :=
        List.dropWhile_append_of_pos hall
      simpa using h
    rw [ht, hd, pySplit_nil]

/-- Splitting a whitespace-free word followed by a space peels off that word. -/
theorem pySplit_word_append (w r : List Char) (hne : w ≠ [])
    (hns : ∀ c ∈ w, pyIsSpace c = false) :
    pySplit (w ++ ' ' :: r) = w :: pySplit r := by
  cases w with
  | nil => exact absurd rfl hne
  | cons c cs =>
    have hall : ∀ a ∈ cs, notSpace a = true := fun a ha => by
      simp [notSpace, hns a (List.mem_cons_of_mem c ha)]
    rw [List.cons_append, pySplit_cons_notSpace (hns c (by simp))]
    have ht : (cs ++ ' ' :: r).takeWhile notSpace = cs := by
      rw [List.takeWhile_append_of_pos hall]
      simp [notSpace, pyIsSpace_space]
    have hd : (cs ++ ' ' :: r).dropWhile notSpace = ' ' :: r := by
      rw [List.dropWhile_append_of_pos hall]
      simp [notSpace, pyIsSpace_space]
    rw [ht, hd, pySplit_cons_space pyIsSpace_space]

/-- Splitting inverts joining on lists of nonempty whitespace-free words. -/
theorem pySplit_joinWords (ws : List (List Char))
    (h : ∀ w ∈ ws, w ≠ [] ∧ ∀ c ∈ w, pyIsSpace c = false) :
    pySplit (joinWords ws) = ws := by
  induction ws with
  | nil => simp [joinWords, pySplit_nil]
  | cons w ws ih =>
    cases ws with
    | nil =>
      have hw := h w (by simp)
      simp [joinWords, pySplit_word w hw.1 hw.2]
    | cons v vs =>
      rw [joinWords_cons_of_ne w (v :: vs) (by simp)]
      have hw := h w (by simp)
      rw [pySplit_word_append w _ hw.1 hw.2]
      rw [ih (fun u hu => h u (List.mem_cons_of_mem _ hu))]

/-- Every character of a normalized string is already lowercase and kept by
the filter. -/
theorem mem_normalize_lower {s : List Char} {c : Char} (h : c ∈ normalize_text s) :
    pyLower c = c ∧ keepChar c = true := by
  unfold normalize_text at h
  rcases mem_joinWords h with h | ⟨w, hw, hc⟩
  · subst h
    exact ⟨pyLower_space, keepChar_space⟩
  · have hcm : c ∈ List.filter keepChar (s.map pyLower) :=
      pySplit_words_subset _ w hw c hc
    rcases List.mem_filter.mp hcm with ⟨hmap, hkeep⟩
    rcases List.mem_map.mp hmap with ⟨a, _, rfl⟩
    exact ⟨pyLower_idem a, hkeep⟩

/-- Splitting a normalized string recovers the words of the filtered,
lowercased input. -/
theorem pySplit_normalize (s : List Char) :
    pySplit (normalize_text s) = pySplit (List.filter keepChar (s.map pyLower)) := by
  unfold normalize_text
  exact pySplit_joinWords _ (pySplit_words _)

/-- Lowercasing a normalized string changes nothing. -/
theorem normalize_map_lower (s : List Char) :
    (normalize_text s).map pyLower = normalize_text s := by
  have h : ∀ c ∈ normalize_text s, pyLower c = c := fun c hc => (mem_normalize_lower hc).1
  calc (normalize_text s).map pyLower = (normalize_text s).map id := List.map_congr_left h
  _ = normalize_text s := List.map_id _

/-- Filtering a normalized string changes nothing. -/
theorem normalize_filter_keep (s : List Char) :
    List.filter keepChar (normalize_text s) = normalize_text s :=
  List.filter_eq_self.mpr (fun _ hc => (mem_normalize_lower hc).2)

/-- The normalizer is idempotent. -/
theorem normalize_text_idem (s : List Char) :
    normalize_text (normalize_text s) = normalize_text s := by
  have h1 : normalize_text (normalize_text s) =
      joinWords (pySplit (List.filter keepChar ((normalize_text s).map pyLower))) := rfl
  rw [h1, normalize_map_lower, normalize_filter_keep, pySplit_normalize]
  rfl

/-- Every word of a normalized string is a nonempty fixed point of the
normalizer made of lowered, kept, non-whitespace characters. -/
theorem normalize_word_fixed {s w : List Char} (hw : w ∈ pySplit (normalize_text s)) :
    w ≠ [] ∧ normalize_text w = w ∧
      ∀ c ∈ w, pyIsSpace c = false ∧ pyLower c = c ∧ keepChar c = true := by
  rw [pySplit_normalize] at hw
  have h1 := pySplit_words (List.filter keepChar (s.map pyLower)) w hw
  have hchar : ∀ c ∈ w, pyLower c = c ∧ keepChar c = true := by
    intro c hc
    have hcm : c ∈ List.filter keepChar (s.map pyLower) :=
      pySplit_words_subset _ w hw c hc
    rcases List.mem_filter.mp hcm with ⟨hmap, hkeep⟩
    rcases List.mem_map.mp hmap with ⟨a, _, rfl⟩
    exact ⟨pyLower_idem a, hkeep⟩
  refine ⟨h1.1, ?_, fun c hc => ⟨h1.2 c hc, (hchar c hc).1, (hchar c hc).2⟩⟩
  have hmap : w.map pyLower = w := by
    calc w.map pyLower = w.map id := List.map_congr_left (fun c hc => (hchar c hc).1)
    _ = w := List.map_id w
  have hfil : List.filter keepChar w = w :=
    List.filter_eq_self.mpr (fun c hc => (hchar c hc).2)
  show joinWords (pySplit (List.filter keepChar (w.map pyLower))) = w
  rw [hmap, hfil, pySplit_word w h1.1 h1.2]
  rfl

/-- The spec's keep class and the code's regex keep class agree. -/
theorem specKeep_eq_keepChar : specKeep = keepChar := by
  funext c
  simp [specKeep, keepChar, pyIsWordChar, Bool.or_assoc]

/-- The collapse worker copies a whitespace-free prefix unchanged. -/
theorem specCollapseAux_word (t r : List Char) (h : ∀ c ∈ t, pyIsSpace c = false) :
    specCollapseAux (t ++ r) false = t ++ specCollapseAux r false := by
  induction t with
  | nil => rfl
  | cons c cs ih =>
    have hc := h c (by simp)
    simp only [List.cons_append, specCollapseAux, hc, Bool.false_eq_true, if_false]
    simp [ih (fun x hx => h x (List.mem_cons_of_mem c hx))]

/-- The collapse worker with a pending whitespace run: emit one space unless
only whitespace remains. -/
theorem specCollapseAux_true (s : List Char) :
    specCollapseAux s true =
      if s.dropWhile pyIsSpace = [] then []
      else ' ' :: specCollapseAux (s.dropWhile pyIsSpace) false := by
  induction s with
  | nil => simp [specCollapseAux]
  | cons c cs ih =>
    cases hsp : pyIsSpace c with
    | false =>
      rw [List.dropWhile_cons_of_neg (by simp [hsp])]
      simp [specCollapseAux, hsp]
    | true =>
      simp only [specCollapseAux, hsp, if_true]
      rw [ih, List.dropWhile_cons_of_pos (by simp [hsp])]

/-- Dropping leading whitespace does not change the split. -/
theorem pySplit_dropWhile (s : List Char) :
    pySplit (s.dropWhile pyIsSpace) = pySplit s := by
  induction s with
  | nil => rfl
  | cons c cs ih =>
    cases hsp : pyIsSpace c with
    | false => rw [List.dropWhile_cons_of_neg (by simp [hsp])]
    | true => rw [List.dropWhile_cons_of_pos (by simp [hsp]), ih, pySplit_cons_space hsp]

/-- The split is empty exactly when the string is all whitespace. -/
theorem pySplit_eq_nil_iff (s : List Char) :
    pySplit s = [] ↔ s.dropWhile pyIsSpace = [] := by
  induction s with
  | nil => simp [pySplit_nil]
  | cons c cs ih =>
    cases hsp : pyIsSpace c with
    | false =>
      rw [pySplit_cons_notSpace hsp, List.dropWhile_cons_of_neg (by simp [hsp])]
      simp
    | true =>
      rw [pySplit_cons_space hsp, List.dropWhile_cons_of_pos (by simp [hsp])]
      exact ih

/-- The spec's collapse-and-trim pipeline computes split-then-join. -/
theorem specCollapse_pySplit (l : List Char) :
    specCollapseAux (l.dropWhile pyIsSpace) false = joinWords (pySplit l) := by
  cases l with
  | nil => rfl
  | cons c cs =>
    cases hsp : pyIsSpace c with
    | true =>
      rw [List.dropWhile_cons_of_pos (by simp [hsp]), pySplit_cons_space hsp]
      exact specCollapse_pySplit cs
    | false =>
      rw [List.dropWhile_cons_of_neg (by simp [hsp]), pySplit_cons_notSpace hsp]
      have hstep : specCollapseAux (c :: cs) false = c :: specCollapseAux cs false := by
        simp [specCollapseAux, hsp]
      rw [hstep]
      have htns : ∀ x ∈ cs.takeWhile notSpace, pyIsSpace x = false := by
        intro x hx
        have hall := List.all_takeWhile (l := cs) (p := notSpace)
        rw [List.all_eq_true] at hall
        simpa [notSpace] using hall x hx
      have h2 : specCollapseAux cs false =
          cs.takeWhile notSpace ++ specCollapseAux (cs.dropWhile notSpace) false := by
        conv_lhs => rw [← List.takeWhile_append_dropWhile (p := notSpace) (l := cs)]
        exact specCollapseAux_word _ _ htns
      have hlen : (cs.dropWhile notSpace).length ≤ cs.length :=
        (List.dropWhile_sublist notSpace).length_le
      cases hd : cs.dropWhile notSpace with
      | nil =>
        rw [h2, hd, pySplit_nil]
        simp [joinWords, specCollapseAux]
      | cons x d' =>
        have hx : pyIsSpace x = true := by
          have h := List.head?_dropWhile_not notSpace cs
          rw [hd] at h
          simp only [List.head?_cons] at h
          simpa [notSpace] using h
        rw [h2, hd]
        have h3 : specCollapseAux (x :: d') false = specCollapseAux d' true := by
          simp [specCollapseAux, hx]
        rw [h3, specCollapseAux_true d', pySplit_cons_space hx]
        by_cases hnil : d'.dropWhile pyIsSpace = []
        · rw [if_pos hnil, (pySplit_eq_nil_iff d').mpr hnil]
          simp [joinWords]
        · rw [if_neg hnil, specCollapse_pySplit d']
          have hne : pySplit d' ≠ [] := fun hcontra =>
            hnil ((pySplit_eq_nil_iff d').mp hcontra)
          rw [joinWords_cons_of_ne _ _ hne]
          simp
termination_by l.length
decreasing_by
all_goals simp only [List.length_cons]
all_goals try omega
rw [hd] at hlen
simp only [List.length_cons] at hlen
omega

/-- The normalizer written from the spec's three steps agrees with the
code's normalizer on every string. -/
theorem spec_normalize_eq (s : List Char) : spec_normalize s = normalize_text s := by
  unfold spec_normalize normalize_text
  rw [specKeep_eq_keepChar]
  exact specCollapse_pySplit _

/-- Rounding fixes zero. -/
theorem pyRound1_zero : pyRound1 0 = 0 := by
  have h : pyRoundHalfEven (10 * (0 : ℚ)) = 0 :=
    pyRoundHalfEven_eq_low _ 0 (by norm_num) (by norm_num)
  rw [pyRound1, h]
  norm_num

/-- Rounding fixes one hundred. -/
theorem pyRound1_hundred : pyRound1 100 = 100 := by
  have h : pyRoundHalfEven (10 * (100 : ℚ)) = 1000 :=
    pyRoundHalfEven_eq_low _ 1000 (by norm_num) (by norm_num)
  rw [pyRound1, h]
  norm_num

/-- Two thirds of a hundred rounds to 66.7. -/
theorem pyRound1_two_thirds : pyRound1 ((2 : ℚ) / 3 * 100) = 667 / 10 := by
  have h : pyRoundHalfEven (10 * ((2 : ℚ) / 3 * 100)) = 667 := by
    have h1 := pyRoundHalfEven_eq_high (10 * ((2 : ℚ) / 3 * 100)) 666
      (by norm_num) (by norm_num) (by norm_num)
    simpa using h1
  rw [pyRound1, h]
  norm_num

/-- The evaluator, written as a map over the normalized expected words. -/
theorem evaluate_words_eq (t e : List Char) :
    evaluate_words t e = (pySplit (normalize_text e)).map
      (fun w => { word := w, correct := (pySplit (normalize_text t)).contains w }) := rfl

/-- Containment in a list of words, as the `in` test the code performs. -/
theorem contains_iff_mem (l : List (List Char)) (w : List Char) :
    l.contains w = true ↔ w ∈ l := List.elem_iff

/-- The word evaluations carried by a successful response. -/
theorem transcribe_success_word_evaluations (t e : List Char) :
    (transcribe_success t e).word_evaluations = evaluate_words t e := rfl

/-- The transcript echoed by a successful response. -/
theorem transcribe_success_transcribed_text (t e : List Char) :
    (transcribe_success t e).transcribed_text = t := rfl

/-- The all-correct flag of a successful response. -/
theorem transcribe_success_all_correct (t e : List Char) :
    (transcribe_success t e).all_correct =
      (List.countP (fun ev => ev.correct) (evaluate_words t e) ==
        (evaluate_words t e).length) := rfl

/-- The score of a successful response, before any simplification. -/
theorem transcribe_success_overall_score (t e : List Char) :
    (transcribe_success t e).overall_score =
      pyRound1 (if 0 < (evaluate_words t e).length then
        (List.countP (fun ev => ev.correct) (evaluate_words t e) : ℚ) /
          ((evaluate_words t e).length : ℚ) * 100 else 0) := rfl

/-- The score on concrete correct and total counts. -/
theorem transcribe_success_score (t e : List Char) (c n : ℕ)
    (hc : List.countP (fun ev => ev.correct) (evaluate_words t e) = c)
    (hl : (evaluate_words t e).length = n) (hn : 0 < n) :
    (transcribe_success t e).overall_score = pyRound1 ((c : ℚ) / (n : ℚ) * 100) := by
  rw [transcribe_success_overall_score, hc, hl, if_pos hn]

/-- The score when there are no word evaluations. -/
theorem transcribe_success_score_zero (t e : List Char)
    (hl : (evaluate_words t e).length = 0) :
    (transcribe_success t e).overall_score = 0 := by
  rw [transcribe_success_overall_score, hl, if_neg (by norm_num)]
  exact pyRound1_zero

/-- C1: for every transcribed string and expected string, the word evaluator
returns one WordEvaluation per word of the normalized expected string, in the
expected string's word order, each marked correct exactly when that token
occurs among the normalized transcribed tokens; when the expected string
normalizes to zero tokens the result is empty. -/
theorem claim_C1 (transcribed expected : List Char) :
    ((evaluate_words transcribed expected).map WordEvaluation.word =
        pySplit (normalize_text expected)) ∧
    (∀ ev ∈ evaluate_words transcribed expected,
        (ev.correct = true ↔ ev.word ∈ pySplit (normalize_text transcribed))) ∧
    (pySplit (normalize_text expected) = [] →
        evaluate_words transcribed expected = []) := by
  refine ⟨?_, ?_, ?_⟩
  · rw [evaluate_words_eq, List.map_map]
    exact List.map_id _
  · intro ev hev
    rw [evaluate_words_eq] at hev
    rcases List.mem_map.mp hev with ⟨w, _, rfl⟩
    exact contains_iff_mem _ w
  · intro h
    rw [evaluate_words_eq, h]
    rfl

/-- Witness for C1 at transcribed = "dia bom", expected = "Bom dia". -/
theorem claim_C1_witness :
    ({ word := "bom".toList, correct := true } : WordEvaluation).correct = true ↔
      "bom".toList ∈ pySplit (normalize_text ("dia bom".toList)) :=
  (claim_C1 ("dia bom".toList) ("Bom dia".toList)).2.1
    { word := "bom".toList, correct := true } (by decide)

/-- C2: for every successful /transcribe request, overall_score equals
round(100 * count of correct evaluations / number of evaluations, 1) when
the evaluation sequence is non-empty, and 0 when the expected phrase
normalizes to zero words; in particular 2 correct out of 3 yields 66.7. -/
theorem claim_C2 (provider : Except (List Char) (List Char))
    (expected_phrase : List Char) (r : TranscriptionResponse)
    (h : transcribe_audio provider expected_phrase = Except.ok r) :
    (r.word_evaluations ≠ [] →
      r.overall_score = pyRound1 (100 *
        (List.countP (fun ev => ev.correct) r.word_evaluations : ℚ) /
        (r.word_evaluations.length : ℚ))) ∧
    (pySplit (normalize_text expected_phrase) = [] → r.overall_score = 0) ∧
    (transcribe_success ("bom dia".toList) ("bom dia tudo".toList)).overall_score =
      667 / 10 := by
  refine ⟨?_, ?_, ?_⟩
  · cases provider with
    | error e => simp [transcribe_audio] at h
    | ok txt =>
      simp only [transcribe_audio, Except.ok.injEq] at h
      subst h
      intro hne
      rw [transcribe_success_word_evaluations] at hne ⊢
      have hpos : 0 < (evaluate_words txt expected_phrase).length :=
        List.length_pos.mpr hne
      rw [transcribe_success_score txt expected_phrase _ _ rfl rfl hpos]
      congr 1
      ring
  · cases provider with
    | error e => simp [transcribe_audio] at h
    | ok txt =>
      simp only [transcribe_audio, Except.ok.injEq] at h
      subst h
      intro hmt
      refine transcribe_success_score_zero txt expected_phrase ?_
      rw [evaluate_words_eq, hmt]
      rfl
  · rw [transcribe_success_score _ _ 2 3 (by decide) (by decide) (by norm_num)]
    have h23 : ((2 : ℕ) : ℚ) / ((3 : ℕ) : ℚ) * 100 = (2 : ℚ) / 3 * 100 := by norm_num
    rw [h23]
    exact pyRound1_two_thirds

/-- Witness for C2 on a successful request with 2 of 3 words correct. -/
theorem claim_C2_witness :
    (transcribe_success ("bom dia".toList) ("bom dia tudo".toList)).overall_score =
      pyRound1 (100 * (List.countP (fun ev => ev.correct)
        (transcribe_success ("bom dia".toList) ("bom dia tudo".toList)).word_evaluations : ℚ) /
        ((transcribe_success ("bom dia".toList) ("bom dia tudo".toList)).word_evaluations.length : ℚ)) :=
  (claim_C2 (Except.ok ("bom dia".toList)) ("bom dia tudo".toList) _ rfl).1 (by decide)

/-- C3 counterexample: a successful request whose expected phrase normalizes
to zero words satisfies the containment hypothesis vacuously, yet its
overall_score is 0, not 100. -/
theorem claim_C3_counterexample :
    transcribe_audio (Except.ok []) [] = Except.ok (transcribe_success [] []) ∧
    pySplit (normalize_text ([] : List Char)) = [] ∧
    (transcribe_success ([] : List Char) []).overall_score = 0 ∧
    (transcribe_success ([] : List Char) []).overall_score ≠ 100 := by
  have hs : (transcribe_success ([] : List Char) []).overall_score = 0 :=
    transcribe_success_score_zero _ _ (by decide)
  exact ⟨rfl, rfl, hs, by rw [hs]; norm_num⟩

/-- C3 (amended): for every successful /transcribe request whose expected
phrase normalizes to at least one word, if every normalized expected word
appears among the normalized transcribed words then all_correct is true and
overall_score is 100. -/
theorem claim_C3 (provider : Except (List Char) (List Char))
    (expected_phrase : List Char) (r : TranscriptionResponse)
    (h : transcribe_audio provider expected_phrase = Except.ok r)
    (hne : pySplit (normalize_text expected_phrase) ≠ [])
    (hsub : ∀ w ∈ pySplit (normalize_text expected_phrase),
      w ∈ pySplit (normalize_text r.transcribed_text)) :
    r.all_correct = true ∧ r.overall_score = 100 := by
  cases provider with
  | error e => simp [transcribe_audio] at h
  | ok txt =>
    simp only [transcribe_audio, Except.ok.injEq] at h
    subst h
    rw [transcribe_success_transcribed_text] at hsub
    have hall : ∀ ev ∈ evaluate_words txt expected_phrase, ev.correct = true := by
      intro ev hev
      rw [evaluate_words_eq] at hev
      rcases List.mem_map.mp hev with ⟨w, hw, rfl⟩
      exact (contains_iff_mem _ w).mpr (hsub w hw)
    have hcount : List.countP (fun ev => ev.correct) (evaluate_words txt expected_phrase) =
        (evaluate_words txt expected_phrase).length :=
      List.countP_eq_length.mpr hall
    have hlen : 0 < (evaluate_words txt expected_phrase).length := by
      rw [evaluate_words_eq, List.length_map]
      exact List.length_pos.mpr hne
    constructor
    · rw [transcribe_success_all_correct, hcount]
      simp
    · rw [transcribe_success_score txt expected_phrase _ _ hcount rfl hlen]
      have hn0 : (((evaluate_words txt expected_phrase).length : ℕ) : ℚ) ≠ 0 :=
        Nat.cast_ne_zero.mpr (Nat.pos_iff_ne_zero.mp hlen)
      rw [div_self hn0, one_mul]
      exact pyRound1_hundred

/-- Witness for C3 at expected = "Bom dia", transcribed = "dia bom". -/
theorem claim_C3_witness :
    (transcribe_success ("dia bom".toList) ("Bom dia".toList)).all_correct = true ∧
      (transcribe_success ("dia bom".toList) ("Bom dia".toList)).overall_score = 100 :=
  claim_C3 (Except.ok ("dia bom".toList)) ("Bom dia".toList) _ rfl (by decide) (by decide)

/-- C4: normalization performs exactly the spec's three steps — lowercase,
delete every character that is not a letter, number, underscore, whitespace
or apostrophe, collapse whitespace runs and trim; in particular
normalize("Olá, como vai?") is "olá como vai" and the empty input yields the
empty output. -/
theorem claim_C4 :
    (∀ s : List Char, spec_normalize s = normalize_text s) ∧
    normalize_text ("Olá, como vai?".toList) = "olá como vai".toList ∧
    normalize_text [] = [] :=
  ⟨spec_normalize_eq, by decide, rfl⟩

/-- C5: the normalizer is idempotent. -/
theorem claim_C5 (x : List Char) :
    normalize_text (normalize_text x) = normalize_text x :=
  normalize_text_idem x

/-- C6: the evaluator depends on the transcription only through the set of
its normalized tokens — transcriptions with the same token sets give equal
evaluations; in particular "dia bom" against expected "Bom dia" yields two
correct evaluations, and "a" against expected "a a" yields two correct
evaluations. -/
theorem claim_C6 :
    (∀ t1 t2 e : List Char,
      (∀ w : List Char,
        w ∈ pySplit (normalize_text t1) ↔ w ∈ pySplit (normalize_text t2)) →
      evaluate_words t1 e = evaluate_words t2 e) ∧
    evaluate_words ("dia bom".toList) ("Bom dia".toList) =
      [{ word := "bom".toList, correct := true },
       { word := "dia".toList, correct := true }] ∧
    evaluate_words ("a".toList) ("a a".toList) =
      [{ word := "a".toList, correct := true },
       { word := "a".toList, correct := true }] := by
  refine ⟨?_, by decide, by decide⟩
  intro t1 t2 e hset
  rw [evaluate_words_eq, evaluate_words_eq]
  apply List.map_congr_left
  intro w _
  have hc : (pySplit (normalize_text t1)).contains w =
      (pySplit (normalize_text t2)).contains w := by
    by_cases hw : w ∈ pySplit (normalize_text t2)
    · rw [(contains_iff_mem _ w).mpr hw, (contains_iff_mem _ w).mpr ((hset w).mpr hw)]
    · have h1 : w ∉ pySplit (normalize_text t1) := fun hmem => hw ((hset w).mp hmem)
      have e1 : (pySplit (normalize_text t1)).contains w = false := by
        cases hb : (pySplit (normalize_text t1)).contains w
        · rfl
        · exact absurd ((contains_iff_mem _ w).mp hb) h1
      have e2 : (pySplit (normalize_text t2)).contains w = false := by
        cases hb : (pySplit (normalize_text t2)).contains w
        · rfl
        · exact absurd ((contains_iff_mem _ w).mp hb) hw
      rw [e1, e2]
  rw [hc]

/-- Witness for C6: permuting and duplicating transcribed words leaves the
evaluations unchanged. -/
theorem claim_C6_witness :
    evaluate_words ("bom dia".toList) ("Bom dia".toList) =
      evaluate_words ("dia  bom bom".toList) ("Bom dia".toList) := by
  have h1 : pySplit (normalize_text ("bom dia".toList)) =
      ["bom".toList, "dia".toList] := by decide
  have h2 : pySplit (normalize_text ("dia  bom bom".toList)) =
      ["dia".toList, "bom".toList, "bom".toList] := by decide
  refine claim_C6.1 ("bom dia".toList) ("dia  bom bom".toList) ("Bom dia".toList) ?_
  intro w
  rw [h1, h2]
  simp only [List.mem_cons, List.not_mem_nil, or_false]
  tauto

/-- C7: for every successful /transcribe result, all_correct is true iff
every WordEvaluation is correct, and when the expected phrase normalizes to
zero words all_correct is (vacuously) true while overall_score is 0. -/
theorem claim_C7 (provider : Except (List Char) (List Char))
    (expected_phrase : List Char) (r : TranscriptionResponse)
    (h : transcribe_audio provider expected_phrase = Except.ok r) :
    (r.all_correct = true ↔ ∀ ev ∈ r.word_evaluations, ev.correct = true) ∧
    (pySplit (normalize_text expected_phrase) = [] →
      r.all_correct = true ∧ r.overall_score = 0) := by
  cases provider with
  | error e => simp [transcribe_audio] at h
  | ok txt =>
    simp only [transcribe_audio, Except.ok.injEq] at h
    subst h
    constructor
    · rw [transcribe_success_all_correct, transcribe_success_word_evaluations,
        beq_iff_eq]
      exact List.countP_eq_length
    · intro hmt
      have hev : evaluate_words txt expected_phrase = [] := by
        rw [evaluate_words_eq, hmt]
        rfl
      constructor
      · rw [transcribe_success_all_correct, hev]
        rfl
      · exact transcribe_success_score_zero txt expected_phrase (by rw [hev]; rfl)

/-- Witness for C7 on an expected phrase that normalizes to zero words. -/
theorem claim_C7_witness :
    (transcribe_success ("x".toList) ("?!".toList)).all_correct = true ∧
      (transcribe_success ("x".toList) ("?!".toList)).overall_score = 0 :=
  (claim_C7 (Except.ok ("x".toList)) ("?!".toList) _ rfl).2 (by decide)

/-- C8: getAll returns the full static catalog in insertion order, and for
every integer id, getById returns the unique phrase with that id when one
exists and a 404 NotFound error otherwise; in particular id 999 yields
NotFound. -/
theorem claim_C8 :
    get_phrases = PORTUGUESE_PHRASES ∧
    (∀ (i : ℤ) (p : Phrase),
      get_phrase i = Except.ok p ↔ (p ∈ PORTUGUESE_PHRASES ∧ p.id = i)) ∧
    (∀ i : ℤ, (∀ p ∈ PORTUGUESE_PHRASES, p.id ≠ i) →
      get_phrase i =
        Except.error { status_code := 404, detail := "Phrase not found".toList }) ∧
    get_phrase 999 =
      Except.error { status_code := 404, detail := "Phrase not found".toList } := by
  refine ⟨rfl, ?_, ?_, rfl⟩
  · intro i p
    constructor
    · intro h
      unfold get_phrase at h
      cases hf : PORTUGUESE_PHRASES.find? (fun q => q.id == i) with
      | none =>
        rw [hf] at h
        exact absurd h (by simp)
      | some q =>
        rw [hf] at h
        simp only [Except.ok.injEq] at h
        subst h
        refine ⟨List.mem_of_find?_eq_some hf, ?_⟩
        have hq := List.find?_some hf
        simpa using hq
    · rintro ⟨hp, hid⟩
      fin_cases hp <;> subst hid <;> rfl
  · intro i hi
    unfold get_phrase
    have hf : PORTUGUESE_PHRASES.find? (fun q => q.id == i) = none := by
      rw [List.find?_eq_none]
      intro p hp
      simpa using hi p hp
    rw [hf]

/-- Witness for C8: looking up id 2 returns the "Bom dia" phrase. -/
theorem claim_C8_witness :
    get_phrase 2 = Except.ok
      { id := 2, phrase := "Bom dia".toList, translation := "Good morning".toList } :=
  (claim_C8.2.1 2
    { id := 2, phrase := "Bom dia".toList, translation := "Good morning".toList }).mpr
    ⟨by decide, rfl⟩

/-- C9: any provider-side failure surfaces as a single generic 500
"Transcription failed" error with no partial result; a successful provider
call yields the full response; a request never yields both. -/
theorem claim_C9 (provider : Except (List Char) (List Char))
    (expected_phrase : List Char) :
    (∀ msg, provider = Except.error msg →
      transcribe_audio provider expected_phrase = Except.error
        { status_code := 500, detail := "Transcription failed: ".toList ++ msg }) ∧
    (∀ txt, provider = Except.ok txt →
      transcribe_audio provider expected_phrase =
        Except.ok (transcribe_success txt expected_phrase)) ∧
    ¬ (∃ resp err, transcribe_audio provider expected_phrase = Except.ok resp ∧
        transcribe_audio provider expected_phrase = Except.error err) := by
  refine ⟨?_, ?_, ?_⟩
  · rintro msg rfl
    rfl
  · rintro txt rfl
    rfl
  · rintro ⟨resp, err, h1, h2⟩
    rw [h1] at h2
    exact Except.noConfusion h2

/-- Witness for C9 on a failing provider call. -/
theorem claim_C9_witness :
    transcribe_audio (Except.error ("boom".toList)) ("Bom dia".toList) =
      Except.error
        { status_code := 500
          detail := "Transcription failed: ".toList ++ "boom".toList } :=
  (claim_C9 (Except.error ("boom".toList)) ("Bom dia".toList)).1 ("boom".toList) rfl

/-- C10: every word field returned by the evaluator is a nonempty fixed
point of normalization: no whitespace, no uppercase, and every character a
word character or apostrophe. -/
theorem claim_C10 (transcribed expected : List Char) :
    ∀ ev ∈ evaluate_words transcribed expected,
      ev.word ≠ [] ∧ normalize_text ev.word = ev.word ∧
        ∀ c ∈ ev.word, pyIsSpace c = false ∧ pyLower c = c ∧
          (pyIsWordChar c = true ∨ c = apostrophe) := by
  intro ev hev
  rw [evaluate_words_eq] at hev
  rcases List.mem_map.mp hev with ⟨w, hw, rfl⟩
  have h := normalize_word_fixed hw
  refine ⟨h.1, h.2.1, ?_⟩
  intro c hc
  have hc3 := h.2.2 c hc
  refine ⟨hc3.1, hc3.2.1, ?_⟩
  have hk : (pyIsWordChar c || pyIsSpace c || c == apostrophe) = true := hc3.2.2
  rw [hc3.1] at hk
  simpa using hk

/-- Witness for C10 at transcribed = "olá", expected = "Olá!". -/
theorem claim_C10_witness :
    "olá".toList ≠ [] ∧ normalize_text ("olá".toList) = "olá".toList :=
  ⟨(claim_C10 ("olá".toList) ("Olá!".toList)
      { word := "olá".toList, correct := true } (by decide)).1,
   (claim_C10 ("olá".toList) ("Olá!".toList)
      { word := "olá".toList, correct := true } (by decide)).2.1⟩

end SpeakWell
